import Mathlib

set_option maxRecDepth 8000

/-!
Shallow embedding of `peregrinearb/bellmannx.py`: the modified Bellman-Ford
negative-cycle engine (`NegativeWeightFinder`, `NegativeWeightDepthFinder`),
its retracers, and the profit evaluator `calculate_profit_ratio_for_path`.

Python floats are modelled as exact rationals (`ℚ`); `float('Inf')` as the
value `DVal.inf` of an explicit rationals-with-infinity type.  Python
dictionaries keyed by graph nodes are modelled as
total functions on `Node` (all nodes that the algorithm touches are keys of
those dictionaries, so the totalization is unobservable on the executions
reached from `bellman_ford`).  The `while True:` loops of the retracers are
given explicit fuel; running out of fuel is reported as a distinguished
outcome (`nofuel`) so that nontermination is never confused with a result.
Python exceptions are explicit error values.
-/

abbrev Node := Nat

structure EdgeData where
  weight : ℚ
  depth : ℚ
deriving DecidableEq, Repr

/-- An edge as iterated by `graph.edges(data=True)`: (tail, head, attributes). -/
abbrev GEdge := Node × Node × EdgeData

structure Graph where
  nodes : List Node
  edges : List GEdge
deriving DecidableEq, Repr

/-- `graph[u][v]`: attribute lookup of the edge from `u` to `v` (first match);
`none` models Python's `KeyError` for a missing edge. -/
def Graph.edgeData (g : Graph) (u v : Node) : Option EdgeData :=
  (g.edges.find? (fun e => e.1 == u && e.2.1 == v)).map (fun e => e.2.2)

/-- A distance value: a rational or `float('Inf')`. -/
inductive DVal where
  | inf
  | fin (q : ℚ)
deriving DecidableEq, Repr

/-- `d + w` for a distance `d` and a plain weight `w` (`inf + w = inf`). -/
def DVal.addW : DVal → ℚ → DVal
  | DVal.inf, _ => DVal.inf
  | DVal.fin q, w => DVal.fin (q + w)

/-- Python `<` on distance values (`inf < inf` is false, `q < inf` is true,
`inf < q` is false). -/
def DVal.blt : DVal → DVal → Bool
  | DVal.inf, _ => false
  | DVal.fin _, DVal.inf => true
  | DVal.fin a, DVal.fin b => decide (a < b)

/-- Addition of two distance values (`inf` is absorbing, as for floats). -/
def DVal.addD : DVal → DVal → DVal
  | DVal.inf, _ => DVal.inf
  | _, DVal.inf => DVal.inf
  | DVal.fin a, DVal.fin b => DVal.fin (a + b)

/-- The order on distance values as a proposition (`d ≤ e`). -/
def DVal.Le : DVal → DVal → Prop
  | _, DVal.inf => True
  | DVal.inf, DVal.fin _ => False
  | DVal.fin a, DVal.fin b => a ≤ b

/-- Modelled from the spec: `PrioritySet` lives in `peregrinearb/utils`, which is
not part of the provided sources.  Spec section 4.1: a per-node, append-only
collection of (priority, predecessor) pairs kept in ascending priority order
with ties broken by insertion order (stable), plus a movable read cursor.
`pop` returns the pair at the cursor and advances it, `peek` is non-mutating,
`empty` means the cursor is exhausted, `reset` rewinds the cursor to the best
candidate; entries are never physically removed. -/
structure PrioritySet where
  entries : List (DVal × Node)
  cursor : Nat

/-- Stable ordered insertion: strictly smaller priorities go first, a tie is
placed after the existing equal-priority entries (spec 4.1: ties broken by
insertion order). -/
def PrioritySet.insertEntry (pr : DVal) (n : Node) :
    List (DVal × Node) → List (DVal × Node)
  | [] => [(pr, n)]
  | e :: es =>
    if pr.blt e.1 then (pr, n) :: e :: es else e :: PrioritySet.insertEntry pr n es

def PrioritySet.add (ps : PrioritySet) (pr : DVal) (n : Node) : PrioritySet :=
  { ps with entries := PrioritySet.insertEntry pr n ps.entries }

def PrioritySet.peek (ps : PrioritySet) : Option (DVal × Node) :=
  ps.entries[ps.cursor]?

def PrioritySet.pop (ps : PrioritySet) : Option ((DVal × Node) × PrioritySet) :=
  match ps.peek with
  | none => none
  | some e => some (e, { ps with cursor := ps.cursor + 1 })

/-- The `empty` property: the cursor has consumed every entry. -/
def PrioritySet.empty (ps : PrioritySet) : Bool :=
  ps.entries.length ≤ ps.cursor

def PrioritySet.reset (ps : PrioritySet) : PrioritySet :=
  { ps with cursor := 0 }

/-- The mutable state of a `NegativeWeightFinder` (shared by the depth finder):
the graph, the two distance dictionaries, the two predecessor dictionaries and
the set of seen nodes. -/
structure Finder where
  graph : Graph
  distance_to : Node → DVal
  distance_from : Node → DVal
  predecessor_to : Node → PrioritySet
  predecessor_from : Node → PrioritySet
  seen_nodes : List Node

/-- `NegativeWeightFinder.__init__` (the logging adapter is ignored). -/
def Finder.mk0 (g : Graph) : Finder :=
  { graph := g
    distance_to := fun _ => DVal.inf
    distance_from := fun _ => DVal.inf
    predecessor_to := fun _ => ⟨[], 0⟩
    predecessor_from := fun _ => ⟨[], 0⟩
    seen_nodes := [] }

/-- `initialize(source)`: every node gets distance `inf` and a fresh
`PrioritySet`; the source gets distance 0 in both directions. -/
def Finder.initSource (st : Finder) (source : Node) : Finder :=
  { st with
    distance_to := fun n => if n = source then DVal.fin 0 else DVal.inf
    distance_from := fun n => if n = source then DVal.fin 0 else DVal.inf
    predecessor_to := fun _ => ⟨[], 0⟩
    predecessor_from := fun _ => ⟨[], 0⟩ }

/-- `relax(edge)`, lines 139-155: maybe improve `distance_to[head]`, always
record a candidate in `predecessor_to[head]`, then symmetrically for
`distance_from`/`predecessor_from`.  The recorded priorities read the distance
dictionaries after the in-place update, exactly as the Python does. -/
def Finder.relax (st : Finder) (e : GEdge) : Finder :=
  let u := e.1
  let v := e.2.1
  let w : ℚ := e.2.2.weight
  let st1 :=
    if ((st.distance_to u).addW w).blt (st.distance_to v) then
      { st with distance_to := fun n =>
          if n = v then (st.distance_to u).addW w else st.distance_to n }
    else st
  let st2 :=
    { st1 with predecessor_to := fun n =>
        if n = v then (st1.predecessor_to v).add ((st1.distance_to u).addW w) u
        else st1.predecessor_to n }
  let st3 :=
    if ((st2.distance_from v).addW w).blt (st2.distance_from u) then
      { st2 with distance_from := fun n =>
          if n = u then (st2.distance_from v).addW w else st2.distance_from n }
    else st2
  { st3 with predecessor_from := fun n =>
      if n = u then (st3.predecessor_from u).add ((st3.distance_from v).addW w) v
      else st3.predecessor_from n }

/-- One full relaxation pass over `graph.edges`. -/
def Finder.relaxPass (st : Finder) : Finder :=
  st.graph.edges.foldl Finder.relax st

/-- `for i in range(k): relaxPass` -/
def Finder.relaxPasses : Nat → Finder → Finder
  | 0, st => st
  | k + 1, st => (Finder.relaxPasses k st).relaxPass

/-- `reset_predecessor_iteration`: rewind every store's cursor. -/
def Finder.resetAll (st : Finder) : Finder :=
  { st with
    predecessor_to := fun n => (st.predecessor_to n).reset
    predecessor_from := fun n => (st.predecessor_from n).reset }

/-- The Python exceptions that can escape or drive a retrace. -/
inductive RErr where
  | seen          -- SeenNodeError
  | exhausted     -- pop/peek on an exhausted candidate store
  | indexErr      -- list index on an emptied arbitrage loop
  | keyErr        -- graph[u][v] on a missing edge
  | valueErr      -- ValueError (bad configuration / source not in graph)
  | typeErr       -- list *= float  (TypeError)
  | zeroDivision  -- return_path_weight / abs(0)
  | overflow      -- math.ceil(float('inf'))
deriving DecidableEq, Repr

/-- Result of one retrace: a yielded value, an exception, or fuel ran out
(the Python loop would not have terminated within the given budget).  The
mutated finder state is returned in every case, because seen-node marks and
cursor movements persist across failed retraces. -/
inductive ROut (α : Type) where
  | path (p : α) (st : Finder)
  | err (e : RErr) (st : Finder)
  | nofuel (st : Finder)

/-- Modelled from the spec: `last_index_in_list` is imported from
`peregrinearb/utils` (not in the provided sources); per spec section 4.3 the
cycle is cut at the repeated node's last occurrence, so this returns the index
of the last occurrence of `x` (call sites guarantee `x` is present). -/
def lastIndexInList : List Node → Node → Nat
  | [], _ => 0
  | _ :: t, x => if x ∈ t then lastIndexInList t x + 1 else 0

/-- Modelled from the spec: `next_to_each_other` is imported from
`peregrinearb/utils` (not in the provided sources); per spec section 4.3 it
checks whether the candidate is already adjacent to the given node, i.e.
whether the directed pair `(a, b)` occurs consecutively in the list. -/
def nextToEachOther : List Node → Node → Node → Bool
  | a1 :: a2 :: rest, x, y => (a1 == x && a2 == y) || nextToEachOther (a2 :: rest) x y
  | _, _, _ => false

/-- Python `list * int`. -/
def repeatList : Nat → List Node → List Node
  | 0, _ => []
  | k + 1, l => l ++ repeatList k l

/-- `arbitrage_loop[0]` (call sites keep the list nonempty; Python would raise
`IndexError` on an empty list, which cannot occur on these paths). -/
def headN (l : List Node) : Node := l.headD 0

/-- `arbitrage_loop[-1]` (same remark as `headN`). -/
def lastN (l : List Node) : Node := l.getLastD 0

/-- Plain-mode retrace walk (lines 168-185): pop a predecessor of the head,
close the cycle when the popped node already occurs in the loop, otherwise
check seen-ness, prepend, mark seen, continue. -/
def retraceWalk (unique : Bool) : Nat → Finder → Node → List Node → ROut (List Node)
  | 0, st, _, _ => ROut.nofuel st
  | fuel + 1, st, cur, loop =>
    match (st.predecessor_to cur).pop with
    | none => ROut.err RErr.exhausted st
    | some (entry, ps) =>
      let st1 : Finder :=
        { st with predecessor_to := fun n => if n = cur then ps else st.predecessor_to n }
      let nxt := entry.2
      if nxt ∈ loop then
        ROut.path (nxt :: loop.take (lastIndexInList loop nxt + 1)) st1.resetAll
      else if unique ∧ nxt ∈ st1.seen_nodes then
        ROut.err RErr.seen st1
      else
        retraceWalk unique fuel
          { st1 with seen_nodes := nxt :: st1.seen_nodes } nxt (nxt :: loop)

/-- Source-anchored walk (lines 199-203 and 262-267): peek at the best
predecessor of the head; if that edge is already traversed the cycle is
complete and gets cut at the last occurrence of the closing node, otherwise
check seen-ness, prepend, mark seen, continue. -/
def anchoredWalk (unique : Bool) : Nat → Finder → List Node → ROut (List Node)
  | 0, st, _ => ROut.nofuel st
  | fuel + 1, st, loop =>
    match (st.predecessor_to (headN loop)).peek with
    | none => ROut.err RErr.exhausted st
    | some entry =>
      let nxt := entry.2
      if nextToEachOther loop nxt (headN loop) then
        let l1 := nxt :: loop
        ROut.path (l1.take (lastIndexInList l1 nxt + 1)) st
      else if unique ∧ nxt ∈ st.seen_nodes then
        ROut.err RErr.seen st
      else
        anchoredWalk unique fuel
          { st with seen_nodes := nxt :: st.seen_nodes } (nxt :: loop)

/-- Sum of `graph[path[i]][path[i+1]]['weight']` over the path; `none` models
the `KeyError` raised when a consecutive pair is not an edge. -/
def pathWeightQ (g : Graph) : List Node → Option ℚ
  | a :: b :: rest =>
    match g.edgeData a b, pathWeightQ g (b :: rest) with
    | some ed, some w => some (ed.weight + w)
    | _, _ => none
  | _ => some 0

/-- Lines 207-229, the `ensure_profit` block: rotate the closed cycle to start
at `source` if `source` lies on it; if the return-path weight is positive,
repeat the whole list `scalar` times.  Python remarks reproduced faithfully:
`scalar = return_path_weight / abs(loop_weight) + 1` is a float; when it is an
integer the code does `scalar += 1` and then `arbitrage_loop *= scalar`
raises `TypeError` because `scalar` is still a float; otherwise
`scalar = math.ceil(scalar)` and the repetition succeeds.  A zero loop weight
raises `ZeroDivisionError`; an infinite return-path weight makes
`math.ceil` raise `OverflowError`. -/
def ensureProfitStep (st : Finder) (source : Node) (loop : List Node) :
    Except RErr (List Node) :=
  let loop1 :=
    if source ∈ loop then
      loop.drop (loop.indexOf source) ++ loop.take (loop.indexOf source)
    else loop
  let rpw := (st.distance_to (headN loop1)).addD (st.distance_from (lastN loop1))
  if (DVal.fin 0).blt rpw then
    match pathWeightQ st.graph loop1 with
    | none => Except.error RErr.keyErr
    | some lw =>
      if lw = 0 then Except.error RErr.zeroDivision
      else
        match rpw with
        | DVal.inf => Except.error RErr.overflow
        | DVal.fin r =>
          let scalar : ℚ := r / |lw| + 1
          if scalar.den = 1 then Except.error RErr.typeErr
          else Except.ok (repeatList (Int.toNat ⌈scalar⌉) loop1)
  else Except.ok loop1

/-- `_pop_arbitrage_loop` (lines 233-235): drop the loop's head while its
candidate store is exhausted. -/
def popArbLoop (pred : Node → PrioritySet) : List Node → List Node
  | [] => []
  | h :: t => if (pred h).empty then popArbLoop pred t else h :: t

/-- Prefix splice (lines 238-249): extend the loop backwards with
`predecessor_to` pops until its head is `source`, skipping already-traversed
edges with one pop-and-retry. -/
def spliceToSource : Nat → Finder → Node → List Node → ROut (List Node)
  | 0, st, _, _ => ROut.nofuel st
  | fuel + 1, st, source, loop =>
    if headN loop = source then ROut.path loop st
    else
      let loop1 := popArbLoop st.predecessor_to loop
      match loop1 with
      | [] => ROut.err RErr.indexErr st
      | h :: _ =>
        match (st.predecessor_to h).pop with
        | none => ROut.err RErr.exhausted st
        | some (e1, ps1) =>
          let st1 : Finder :=
            { st with predecessor_to := fun n => if n = h then ps1 else st.predecessor_to n }
          let nxt := e1.2
          if nextToEachOther loop1 nxt h then
            match (st1.predecessor_to h).pop with
            | none => ROut.err RErr.exhausted st1
            | some (_, ps2) =>
              let st2 : Finder :=
                { st1 with predecessor_to := fun n => if n = h then ps2 else st1.predecessor_to n }
              let loop2 := popArbLoop st2.predecessor_to loop1
              match loop2 with
              | [] => ROut.err RErr.indexErr st2
              | h2 :: _ =>
                match (st2.predecessor_to h2).pop with
                | none => ROut.err RErr.exhausted st2
                | some (e3, ps3) =>
                  let st3 : Finder :=
                    { st2 with predecessor_to := fun n =>
                        if n = h2 then ps3 else st2.predecessor_to n }
                  spliceToSource fuel st3 source (e3.2 :: loop2)
          else spliceToSource fuel st1 source (nxt :: loop1)

/-- Suffix splice (lines 252-257) followed by the reset-and-return of lines
259-260: extend the loop forwards with `predecessor_from` peeks until its tail
is `source`, popping (but still appending!) on an already-traversed edge. -/
def spliceFromSource : Nat → Finder → Node → List Node → ROut (List Node)
  | 0, st, _, _ => ROut.nofuel st
  | fuel + 1, st, source, loop =>
    if lastN loop = source then ROut.path loop st.resetAll
    else
      let tl := lastN loop
      match (st.predecessor_from tl).peek with
      | none => ROut.err RErr.exhausted st
      | some e1 =>
        let nxt := e1.2
        let st1 : Finder :=
          if nextToEachOther loop tl nxt then
            match (st.predecessor_from tl).pop with
            | none => st
            | some (_, ps) =>
              { st with predecessor_from := fun n => if n = tl then ps else st.predecessor_from n }
          else st
        spliceFromSource fuel st1 source (loop ++ [nxt])

/-- Lines 207-260: what happens to a closed anchored cycle: the optional
`ensure_profit` transformation, the pop of line 231, the prefix splice, the
suffix splice. -/
def anchoredClose (fuel : Nat) (st1 : Finder) (source : Node) (ensure_profit : Bool)
    (loop2 : List Node) : ROut (List Node) :=
  match (if ensure_profit then ensureProfitStep st1 source loop2
         else Except.ok loop2) with
  | Except.error e => ROut.err e st1
  | Except.ok loop4 =>
    match (st1.predecessor_to (headN loop4)).pop with
    | none => ROut.err RErr.exhausted st1
    | some (_, ps) =>
      let st2 : Finder :=
        { st1 with predecessor_to := fun n =>
            if n = headN loop4 then ps else st1.predecessor_to n }
      match spliceToSource fuel st2 source loop4 with
      | ROut.nofuel s => ROut.nofuel s
      | ROut.err e s => ROut.err e s
      | ROut.path loop5 s3 => spliceFromSource fuel s3 source loop5

/-- `NegativeWeightFinder._retrace_negative_loop` (lines 157-267). -/
def NWF_retrace (fuel : Nat) (st : Finder) (start : Node) (loop_from_source : Bool)
    (source : Node) (ensure_profit unique_paths : Bool) : ROut (List Node) :=
  if unique_paths ∧ start ∈ st.seen_nodes then ROut.err RErr.seen st
  else if loop_from_source = false then retraceWalk unique_paths fuel st start [start]
  else if source ∉ st.graph.nodes then ROut.err RErr.valueErr st
  else
    match (st.predecessor_to start).peek with
    | none => ROut.err RErr.exhausted st
    | some e0 =>
      let nxt := e0.2
      if unique_paths ∧ nxt ∈ st.seen_nodes then ROut.err RErr.seen st
      else
        match anchoredWalk unique_paths fuel st [nxt, start] with
        | ROut.nofuel st1 => ROut.nofuel st1
        | ROut.err e st1 => ROut.err e st1
        | ROut.path loop2 st1 => anchoredClose fuel st1 source ensure_profit loop2

/-- Depth-mode retrace loop (lines 328-347). -/
def depthRetraceGo (unique : Bool) :
    Nat → Finder → Node → List Node → ℚ → ROut (List Node × ℚ)
  | 0, st, _, _, _ => ROut.nofuel st
  | fuel + 1, st, prior, loop, minimum =>
    if headN loop ∈ st.seen_nodes ∧ unique then ROut.err RErr.seen st
    else
      let st1 : Finder := { st with seen_nodes := prior :: st.seen_nodes }
      match (st1.predecessor_to (headN loop)).pop with
      | none => ROut.err RErr.exhausted st1
      | some (entry, ps) =>
        let st2 : Finder :=
          { st1 with predecessor_to := fun n =>
              if n = headN loop then ps else st1.predecessor_to n }
        let prior1 := entry.2
        match st2.graph.edgeData prior1 (headN loop) with
        | none => ROut.err RErr.keyErr st2
        | some ed =>
          let minimum1 :=
            if ed.weight + ed.depth < minimum then max (minimum - ed.weight) ed.depth
            else if minimum < ed.weight + ed.depth then ed.depth
            else minimum
          let loop1 := prior1 :: loop
          if prior1 = lastN loop1 then ROut.path (loop1, minimum1) st2
          else depthRetraceGo unique fuel st2 prior1 loop1 minimum1

/-- `NegativeWeightDepthFinder._retrace_negative_loop` (lines 307-347).  Note
that `loop_from_source`/`ensure_profit` are rejected with `ValueError` only
here, inside the retrace, and that this retrace never calls
`reset_predecessor_iteration`. -/
def NWDF_retrace (fuel : Nat) (st : Finder) (start : Node) (loop_from_source : Bool)
    (ensure_profit unique_paths : Bool) : ROut (List Node × ℚ) :=
  if unique_paths ∧ start ∈ st.seen_nodes then ROut.err RErr.seen st
  else if loop_from_source ∨ ensure_profit then ROut.err RErr.valueErr st
  else
    match (st.predecessor_to start).pop with
    | none => ROut.err RErr.exhausted st
    | some (entry, ps) =>
      let st1 : Finder :=
        { st with predecessor_to := fun n => if n = start then ps else st.predecessor_to n }
      let prior := entry.2
      match st1.graph.edgeData prior start with
      | none => ROut.err RErr.keyErr st1
      | some ed => depthRetraceGo unique_paths fuel st1 prior [prior, start] ed.depth

/-- How consuming the whole generator ended. -/
inductive Outcome where
  | done                 -- generator exhausted normally
  | raised (e : RErr)    -- an uncaught exception escaped while consuming it
  | nofuel               -- a retrace exceeded its fuel (possible divergence)
  | sourceMissing        -- ValueError('source ... not in graph') before anything ran
deriving DecidableEq, Repr

/-- Result of fully consuming the generator returned by `bellman_ford`:
the yielded values in order, how the iteration ended, and the final state. -/
structure RunResult (α : Type) where
  yields : List α
  outcome : Outcome
  final : Finder

/-- `_check_final_condition` (lines 126-137 and 288-305, identical up to the
retrace they dispatch to), fully consumed: scan the edges, retrace at the head
of every still-relaxable edge, skip `SeenNodeError`, propagate anything else. -/
def scanGo (retr : Finder → Node → ROut α) :
    Finder → List GEdge → List α → RunResult α
  | st, [], acc => ⟨acc.reverse, Outcome.done, st⟩
  | st, e :: rest, acc =>
    if ((st.distance_to e.1).addW e.2.2.weight).blt (st.distance_to e.2.1) then
      match retr st e.2.1 with
      | ROut.path p st1 => scanGo retr st1 rest (p :: acc)
      | ROut.err er st1 =>
        if er = RErr.seen then scanGo retr st1 rest acc
        else ⟨acc.reverse, Outcome.raised er, st1⟩
      | ROut.nofuel st1 => ⟨acc.reverse, Outcome.nofuel, st1⟩
    else scanGo retr st rest acc

/-- `NegativeWeightFinder.bellman_ford` (lines 72-109), with the returned
generator fully consumed. -/
def NWF_bellman_ford (fuel : Nat) (g : Graph) (source : Node)
    (loop_from_source ensure_profit unique_paths : Bool) : RunResult (List Node) :=
  if source ∈ g.nodes then
    let st0 := (Finder.mk0 g).initSource source
    let stR := Finder.relaxPasses (g.nodes.length - 1) st0
    scanGo (fun st start =>
        NWF_retrace fuel st start loop_from_source source ensure_profit unique_paths)
      stR stR.graph.edges []
  else ⟨[], Outcome.sourceMissing, Finder.mk0 g⟩

/-- `NegativeWeightDepthFinder.bellman_ford` (inherited `bellman_ford` driving
the overridden `_check_final_condition`/`_retrace_negative_loop`). -/
def NWDF_bellman_ford (fuel : Nat) (g : Graph) (source : Node)
    (loop_from_source ensure_profit unique_paths : Bool) : RunResult (List Node × ℚ) :=
  if source ∈ g.nodes then
    let st0 := (Finder.mk0 g).initSource source
    let stR := Finder.relaxPasses (g.nodes.length - 1) st0
    scanGo (fun st start =>
        NWDF_retrace fuel st start loop_from_source ensure_profit unique_paths)
      stR stR.graph.edges []
  else ⟨[], Outcome.sourceMissing, Finder.mk0 g⟩

/-- The method `NegativeWeightFinder(graph).bellman_ford(source, ...)` with its
declared default arguments `loop_from_source=False, ensure_profit=False,
unique_paths=True`. -/
def NWF_bellman_ford_method (fuel : Nat) (g : Graph) (source : Node)
    (loop_from_source : Bool := false) (ensure_profit : Bool := false)
    (unique_paths : Bool := true) : RunResult (List Node) :=
  NWF_bellman_ford fuel g source loop_from_source ensure_profit unique_paths

/-- The module-level wrapper `bellman_ford(graph, source, ...)` (lines
350-359) with its declared default arguments `loop_from_source=False,
ensure_profit=False, unique_paths=False`. -/
def bellman_ford_module (fuel : Nat) (g : Graph) (source : Node)
    (loop_from_source : Bool := false) (ensure_profit : Bool := false)
    (unique_paths : Bool := false) : RunResult (List Node) :=
  NWF_bellman_ford_method fuel g source loop_from_source ensure_profit unique_paths

/-- Inner loop of `calculate_profit_ratio_for_path` (lines 392-416, without the
`gather_path_data` bookkeeping, which only collects reporting metadata):
multiply the running amount by `exp(-weight)` per hop, in depth mode first
capping the carried volume at `exp(-depth)`.  `none` models the `KeyError` on
a missing edge.  (`Real.exp` makes this the one noncomputable definition: the
Python computes with `math.exp`.) -/
noncomputable def calcRatioGo (g : Graph) (depth : Bool) : List Node → ℝ → Option ℝ
  | a :: b :: rest, acc =>
    match g.edgeData a b with
    | none => none
    | some ed =>
      if depth then
        let rate := Real.exp (-(ed.weight : ℝ))
        let vol := min acc (Real.exp (-(ed.depth : ℝ)))
        calcRatioGo g depth (b :: rest) (vol * rate)
      else
        calcRatioGo g depth (b :: rest) (acc * Real.exp (-(ed.weight : ℝ)))
  | _, acc => some acc

/-- `calculate_profit_ratio_for_path` (lines 375-422): run the loop starting
from `starting_amount` and return `ratio / starting_amount`. -/
noncomputable def calculate_profit_ratio_for_path (g : Graph) (path : List Node)
    (depth : Bool) (starting_amount : ℝ) : Option ℝ :=
  (calcRatioGo g depth path starting_amount).map (fun r => r / starting_amount)

/-- `chainOk g s es t`: `es` is a walk of edges of `g` leading from `s` to `t`. -/
def chainOk (g : Graph) : Node → List GEdge → Node → Prop
  | s, [], t => t = s
  | s, e :: es, t => e ∈ g.edges ∧ e.1 = s ∧ chainOk g e.2.1 es t

/-- Total weight of a walk. -/
def chainWeight (es : List GEdge) : ℚ :=
  (es.map (fun e => e.2.2.weight)).sum

/-- `b` is reachable from `a` by a walk in `g`. -/
def Reach (g : Graph) (a b : Node) : Prop :=
  ∃ es, chainOk g a es b

/-- Every edge endpoint is a node (true of every `networkx` graph). -/
def Graph.wellFormed (g : Graph) : Prop :=
  ∀ e ∈ g.edges, e.1 ∈ g.nodes ∧ e.2.1 ∈ g.nodes

/-- The nodes visited by a walk starting at `s`. -/
def chainNodes (s : Node) (es : List GEdge) : List Node :=
  s :: es.map (fun e => e.2.1)

/-- Consecutive pairs of a node list (the traversed edges of a path). -/
def pathPairs : List Node → List (Node × Node)
  | a :: b :: rest => (a, b) :: pathPairs (b :: rest)
  | _ => []

/-- The (weight, depth) attributes of the edge a pair denotes. -/
def lookupWD (g : Graph) (p : Node × Node) : Option (ℚ × ℚ) :=
  (g.edgeData p.1 p.2).map (fun ed => (ed.weight, ed.depth))

/-- The running-minimum update of lines 336-341, including the implicit third
case: when `weight + depth` equals the current minimum neither branch fires
and the minimum is left unchanged. -/
def minFoldStep (m : ℚ) (wd : ℚ × ℚ) : ℚ :=
  if wd.1 + wd.2 < m then max (m - wd.1) wd.2
  else if m < wd.1 + wd.2 then wd.2
  else m

/-- The running-minimum update in the words of the claim (spec section 4.3):
if `weight + depth` exceeds the running minimum the edge's depth becomes the
minimum, and otherwise the minimum is reduced by the weight but floored at the
depth. -/
def claimFoldStep (m : ℚ) (wd : ℚ × ℚ) : ℚ :=
  if m < wd.1 + wd.2 then wd.2 else max (m - wd.1) wd.2

/-- Fold the code's running-minimum update over a pair list. -/
def minAlong (g : Graph) (m : ℚ) : List (Node × Node) → Option ℚ
  | [] => some m
  | p :: rest =>
    match lookupWD g p with
    | none => none
    | some wd => minAlong g (minFoldStep m wd) rest

/-- Fold the claim's running-minimum update over a pair list. -/
def claimMinAlong (g : Graph) (m : ℚ) : List (Node × Node) → Option ℚ
  | [] => some m
  | p :: rest =>
    match lookupWD g p with
    | none => none
    | some wd => claimMinAlong g (claimFoldStep m wd) rest

/-- The depth retrace discovers the loop's edges from its last pair backwards:
the processing order of the pairs of a returned loop. -/
def procPairs (l : List Node) : List (Node × Node) :=
  (pathPairs l).reverse

/-- The minimum the code recurrence computes along a closed loop: seeded with
the first processed edge's depth, folded over the remaining pairs in
processing order. -/
def codeMinOf (g : Graph) (l : List Node) : Option ℚ :=
  match procPairs l with
  | [] => none
  | p :: rest =>
    match lookupWD g p with
    | none => none
    | some wd => minAlong g wd.2 rest

/-- The minimum the claim's recurrence computes along a closed loop. -/
def claimMinOf (g : Graph) (l : List Node) : Option ℚ :=
  match procPairs l with
  | [] => none
  | p :: rest =>
    match lookupWD g p with
    | none => none
    | some wd => claimMinAlong g wd.2 rest

/-- Sum of the weights of a pair list (`none` on a missing edge). -/
def sumW (g : Graph) : List (Node × Node) → Option ℚ
  | [] => some (0 : ℚ)
  | p :: rest =>
    match lookupWD g p, sumW g rest with
    | some wd, some s => some (wd.1 + s)
    | _, _ => none

/-- No step of the code's minimum fold hits the tie `weight + depth = minimum`. -/
def tieFreeFrom (g : Graph) (m : ℚ) : List (Node × Node) → Bool
  | [] => true
  | p :: rest =>
    match lookupWD g p with
    | none => false
    | some wd => decide (wd.1 + wd.2 ≠ m) && tieFreeFrom g (minFoldStep m wd) rest

/-- Tie-freeness of the minimum fold along a whole returned loop. -/
def loopTieFree (g : Graph) (l : List Node) : Bool :=
  match procPairs l with
  | [] => true
  | p :: rest =>
    match lookupWD g p with
    | none => false
    | some wd => tieFreeFrom g wd.2 rest

/-- The state carried by a retrace result. -/
def ROut.state : ROut α → Finder
  | ROut.path _ st => st
  | ROut.err _ st => st
  | ROut.nofuel st => st

/-- The value a retrace yielded, if it returned one. -/
def ROut.yielded : ROut α → Option α
  | ROut.path p _ => some p
  | _ => none

/-- Source, a connecting path in (weight 3), a negative 2-cycle `1↔2` (weight
-2), and a path back (weight 3): anchored profit-guarantee territory. -/
def ExG1 : Graph :=
  { nodes := [0, 1, 2]
    edges := [(0, 1, ⟨3, 0⟩), (1, 2, ⟨-1, 0⟩), (2, 1, ⟨-1, 0⟩), (2, 0, ⟨3, 0⟩)] }

/-- Three negative 2-cycles through node 1 (`1↔0` dominant, `1↔2`, `1↔3`). -/
def ExG2 : Graph :=
  { nodes := [0, 1, 2, 3]
    edges := [(0, 1, ⟨-10, 0⟩), (2, 1, ⟨-1, 0⟩), (3, 1, ⟨-2, 0⟩),
              (1, 0, ⟨-10, 0⟩), (1, 2, ⟨-1, 0⟩), (1, 3, ⟨-2, 0⟩)] }

/-- One source node, no edges: trivially no negative cycle. -/
def ExG3 : Graph :=
  { nodes := [0], edges := [] }

/-- A negative 2-cycle whose second processed edge hits the tie
`weight + depth = minimum` (1 + 2 = 3) with nonzero weight. -/
def ExG4 : Graph :=
  { nodes := [0, 1], edges := [(0, 1, ⟨-3, 3⟩), (1, 0, ⟨1, 2⟩)] }

/-- A negative 2-cycle where the second processed edge has
`weight + depth < minimum` and a very negative weight. -/
def ExG5 : Graph :=
  { nodes := [0, 1], edges := [(0, 1, ⟨-1, 10⟩), (1, 0, ⟨-5, 3⟩)] }

/-- Like `ExG1` but with connecting weight 5 each way, making
`return_path_weight / abs(loop_weight)` an exact integer. -/
def ExG6 : Graph :=
  { nodes := [0, 1, 2]
    edges := [(0, 1, ⟨5, 0⟩), (1, 2, ⟨-1, 0⟩), (2, 1, ⟨-1, 0⟩), (1, 0, ⟨5, 0⟩)] }

/-- A graph with no negative cycle at all. -/
def ExG7 : Graph :=
  { nodes := [0, 1], edges := [(0, 1, ⟨1, 5⟩)] }

/-- A graph with a reachable negative cycle (depth attributes present). -/
def ExG7b : Graph :=
  { nodes := [0, 1], edges := [(0, 1, ⟨-3, 3⟩), (1, 0, ⟨1, 2⟩)] }

/-- Same shape as `ExG4`; used to inspect cursors after a depth retrace. -/
def ExG8 : Graph :=
  { nodes := [0, 1], edges := [(0, 1, ⟨-3, 3⟩), (1, 0, ⟨1, 2⟩)] }

/-- The post-relaxation state of the depth finder on `ExG8` from source 0. -/
def ExG8state : Finder :=
  Finder.relaxPasses 1 ((Finder.mk0 ExG8).initSource 0)

/-- A single zero-weight edge, for the break-even profit evaluation. -/
def ExG9 : Graph :=
  { nodes := [0, 1], edges := [(0, 1, ⟨0, 0⟩)] }

/-- C1: in source-anchored mode with `ensure_profit=True`, when the positive
`return_path_weight` forces the cycle-body repetition, the claim says every
yielded path starts and ends at `source` with a strictly negative edge-weight
sum.  On `ExG1` the forced repetition duplicates the closed cycle's endpoints
(`arbitrage_loop *= scalar` on a list whose first and last elements are
equal), so the yielded path walks `1, 1` back-to-back: there is no such edge,
the weight sum is undefined (Python would raise `KeyError` evaluating it),
hence in particular not strictly negative. -/
theorem c1_ensure_profit_eval :
    (NWF_bellman_ford 120 ExG1 0 true true false).yields
        = [[0, 1, 2, 1, 1, 2, 1, 2, 1, 2, 0]] ∧
      (NWF_bellman_ford 120 ExG1 0 true true false).outcome = Outcome.done ∧
      headN [0, 1, 2, 1, 1, 2, 1, 2, 1, 2, 0] = 0 ∧
      lastN [0, 1, 2, 1, 1, 2, 1, 2, 1, 2, 0] = 0 ∧
      pathWeightQ ExG1 [0, 1, 2, 1, 1, 2, 1, 2, 1, 2, 0] = none := by
  refine ⟨?_, ?_, ?_, ?_, ?_⟩ <;> with_unfolding_all rfl

/-- C2: with `unique_paths=True` the claim says no two yielded cycles share a
node; on `ExG2` one invocation yields `[1,0,1]` and then `[1,3,1]`, which
share node 1 (the retrace start of the first cycle is never added to
`seen_nodes`). -/
theorem c2_unique_overlap_eval :
    (NWF_bellman_ford 80 ExG2 0 false false true).yields = [[1, 0, 1], [1, 3, 1]] ∧
      (NWF_bellman_ford 80 ExG2 0 false false true).outcome = Outcome.done ∧
      (1 : Node) ∈ [1, 0, 1] ∧ (1 : Node) ∈ [1, 3, 1] := by
  refine ⟨?_, ?_, ?_, ?_⟩
  · with_unfolding_all rfl
  · with_unfolding_all rfl
  · simp
  · simp

/-- C6: when `return_path_weight / abs(loop_weight)` is an exact integer the
claim says the cycle body is repeated `ceil + 2` times; the code instead
leaves `scalar` a float after `scalar += 1`, and `arbitrage_loop *= scalar`
raises `TypeError`, so the run aborts with no yield.  On `ExG6` the division
is `20 / 2 = 10`, exact. -/
theorem c6_exact_scalar_eval :
    (NWF_bellman_ford 120 ExG6 0 true true false).outcome = Outcome.raised RErr.typeErr ∧
      (NWF_bellman_ford 120 ExG6 0 true true false).yields = [] := by
  refine ⟨?_, ?_⟩ <;> with_unfolding_all rfl

/-- C4 counterexample: the depth run on `ExG4` yields the loop `[1,0,1]` with
minimum 3, but the claim's recurrence (depth on `weight + depth` exceeding the
minimum, `max (minimum - weight) depth` otherwise) computes 2 along the same
loop: at the tie `1 + 2 = 3` the code leaves the minimum unchanged instead. -/
theorem c4_min_recurrence_counterexample :
    (NWDF_bellman_ford 60 ExG4 0 false false true).yields = [([1, 0, 1], 3)] ∧
      claimMinOf ExG4 [1, 0, 1] = some 2 ∧ (3 : ℚ) ≠ 2 := by
  refine ⟨?_, ?_, ?_⟩ <;> with_unfolding_all decide

/-- C5 counterexample: the depth run on `ExG5` yields loop `[1,0,1]` with
reported minimum 15, which exceeds the individual depth of both traversed
edges (10 and 3); the claimed bottleneck inequality `minimum ≤ depth` fails on
every edge of the loop. -/
theorem c5_bottleneck_counterexample :
    (NWDF_bellman_ford 60 ExG5 0 false false true).yields = [([1, 0, 1], 15)] ∧
      (0, 1) ∈ pathPairs [1, 0, 1] ∧ lookupWD ExG5 (0, 1) = some (-1, 10) ∧
      (1, 0) ∈ pathPairs [1, 0, 1] ∧ lookupWD ExG5 (1, 0) = some (-5, 3) ∧
      ¬ ((15 : ℚ) ≤ 10) ∧ ¬ ((15 : ℚ) ≤ 3) := by
  refine ⟨?_, ?_, ?_, ?_, ?_, ?_, ?_⟩ <;> with_unfolding_all decide

/-- C7 counterexample: requesting `loop_from_source` (or `ensure_profit`) on
the depth finder does not fail before relaxation: on `ExG7`, which has no
negative cycle, the whole run completes with no error at all — the
`ValueError` of `_retrace_negative_loop` is only reachable from a witness
edge, during consumption of the generator, after all relaxation passes. -/
theorem c7_config_error_counterexample :
    (NWDF_bellman_ford 60 ExG7 0 true false true).outcome = Outcome.done ∧
      (NWDF_bellman_ford 60 ExG7 0 true false true).yields = [] ∧
      (NWDF_bellman_ford 60 ExG7 0 false true true).outcome = Outcome.done := by
  refine ⟨?_, ?_, ?_⟩ <;> with_unfolding_all rfl

/-- C8 counterexample: a depth-mode retrace that returns its cycle leaves the
candidate-store cursors where they were (no `reset_predecessor_iteration`):
on `ExG8state` the retrace from node 1 returns `([1,0,1], 3)` with the cursors
of `predecessor_to[1]` and `predecessor_to[0]` still advanced to 1. -/
theorem c8_reset_counterexample :
    (NWDF_retrace 60 ExG8state 1 false false true).yielded = some ([1, 0, 1], 3) ∧
      ((NWDF_retrace 60 ExG8state 1 false false true).state.predecessor_to 1).cursor = 1 ∧
      ((NWDF_retrace 60 ExG8state 1 false false true).state.predecessor_to 0).cursor = 1 := by
  refine ⟨?_, ?_, ?_⟩ <;> with_unfolding_all rfl

/-- C10: the module-level `bellman_ford(graph, source)` with its default
arguments forwards exactly `loop_from_source=False, ensure_profit=False,
unique_paths=False` to `NegativeWeightFinder(graph).bellman_ford` — the
function's default does not enforce path uniqueness, although the method's
own default is `unique_paths=True`. -/
theorem c10_module_defaults :
    ∀ (fuel : Nat) (g : Graph) (source : Node),
      bellman_ford_module fuel g source
        = NWF_bellman_ford_method fuel g source false false false ∧
      NWF_bellman_ford_method fuel g source false false false
        = NWF_bellman_ford fuel g source false false false := by
  intro fuel g source
  exact ⟨rfl, rfl⟩

/-- Depth-free evaluation multiplies the starting amount by `exp` of minus the
path's total weight. -/
theorem calcRatioGo_false_eq (g : Graph) :
    ∀ (p : List Node) (w : ℚ) (acc : ℝ), pathWeightQ g p = some w →
      calcRatioGo g false p acc = some (acc * Real.exp (-(w : ℝ)))
  | [], w, acc, hw => by
    simp only [pathWeightQ, Option.some.injEq] at hw
    subst hw
    simp [calcRatioGo, Real.exp_zero]
  | [a], w, acc, hw => by
    simp only [pathWeightQ, Option.some.injEq] at hw
    subst hw
    simp [calcRatioGo, Real.exp_zero]
  | a :: b :: rest, w, acc, hw => by
    simp only [pathWeightQ] at hw
    rcases hed : g.edgeData a b with _ | ed <;> rw [hed] at hw
    · exact absurd hw (by simp)
    rcases hrest : pathWeightQ g (b :: rest) with _ | w' <;> rw [hrest] at hw
    · exact absurd hw (by simp)
    simp only [Option.some.injEq] at hw
    subst hw
    have ih := calcRatioGo_false_eq g (b :: rest) w' (acc * Real.exp (-(ed.weight : ℝ))) hrest
    simp only [calcRatioGo, hed, Bool.false_eq_true, if_false]
    rw [ih, mul_assoc, ← Real.exp_add]
    push_cast
    ring_nf

/-- C9: `calculate_profit_ratio_for_path` with `depth=False` returns exactly
`exp(-w)` as a multiplier for a path of total weight `w`, independent of the
(nonzero) starting amount, and in particular exactly 1 when `w = 0`. -/
theorem c9_profit_ratio (g : Graph) (p : List Node) (w : ℚ) (amt : ℝ)
    (hw : pathWeightQ g p = some w) (hamt : amt ≠ 0) :
    calculate_profit_ratio_for_path g p false amt = some (Real.exp (-(w : ℝ))) ∧
      (w = 0 → calculate_profit_ratio_for_path g p false amt = some 1) := by
  have h := calcRatioGo_false_eq g p w amt hw
  have hmain : calculate_profit_ratio_for_path g p false amt
      = some (Real.exp (-(w : ℝ))) := by
    unfold calculate_profit_ratio_for_path
    rw [h]
    simp [mul_div_assoc, mul_div_cancel_left₀ _ hamt]
  refine ⟨hmain, fun h0 => ?_⟩
  subst h0
  simpa using hmain

/-- Witness for C9 at a concrete zero-weight edge and starting amount 2. -/
theorem c9_profit_ratio_witness :
    pathWeightQ ExG9 [0, 1] = some 0 ∧
      calculate_profit_ratio_for_path ExG9 [0, 1] false 2 = some 1 := by
  have h := c9_profit_ratio ExG9 [0, 1] 0 2 (by with_unfolding_all rfl) (by norm_num)
  exact ⟨by with_unfolding_all rfl, h.2 rfl⟩

/-- If every retrace invocation raises `SeenNodeError` or `ValueError`, the
scan yields nothing beyond its accumulator and ends normally or with the
`ValueError`. -/
theorem scanGo_never_yields {α : Type} (retr : Finder → Node → ROut α)
    (hretr : ∀ st n, ∃ st',
      retr st n = ROut.err RErr.seen st' ∨ retr st n = ROut.err RErr.valueErr st') :
    ∀ (es : List GEdge) (st : Finder) (acc : List α),
      (scanGo retr st es acc).yields = acc.reverse ∧
        ((scanGo retr st es acc).outcome = Outcome.done ∨
         (scanGo retr st es acc).outcome = Outcome.raised RErr.valueErr)
  | [], st, acc => ⟨rfl, Or.inl rfl⟩
  | e :: rest, st, acc => by
    simp only [scanGo]
    split
    · obtain ⟨st', h | h⟩ := hretr st e.2.1 <;> rw [h]
      · exact scanGo_never_yields retr hretr rest st' acc
      · exact ⟨rfl, Or.inr rfl⟩
    · exact scanGo_never_yields retr hretr rest st acc

/-- With `loop_from_source` or `ensure_profit` requested, a depth-mode retrace
always raises: `SeenNodeError` if the start is already seen, the configuration
`ValueError` otherwise. -/
theorem NWDF_retrace_flagged (fuel : Nat) (st : Finder) (start : Node)
    (lfs ep unique : Bool) (hf : lfs = true ∨ ep = true) :
    ∃ st', NWDF_retrace fuel st start lfs ep unique = ROut.err RErr.seen st' ∨
      NWDF_retrace fuel st start lfs ep unique = ROut.err RErr.valueErr st' := by
  by_cases hseen : unique = true ∧ start ∈ st.seen_nodes
  · exact ⟨st, Or.inl (by unfold NWDF_retrace; rw [if_pos hseen])⟩
  · refine ⟨st, Or.inr ?_⟩
    unfold NWDF_retrace
    rw [if_neg hseen, if_pos]
    rcases hf with h | h <;> simp [h]

/-- C7 amended: requesting `loop_from_source` or `ensure_profit` on the depth
finder never yields a cycle; the run either finishes silently (no witness
edge) or raises the configuration `ValueError` at the first retrace, i.e.
during consumption of the generator after all relaxation passes — never
before the relaxation work. -/
theorem c7_config_error_amended (fuel : Nat) (g : Graph) (source : Node)
    (lfs ep unique : Bool) (hf : lfs = true ∨ ep = true) (hs : source ∈ g.nodes) :
    (NWDF_bellman_ford fuel g source lfs ep unique).yields = [] ∧
      ((NWDF_bellman_ford fuel g source lfs ep unique).outcome = Outcome.done ∨
       (NWDF_bellman_ford fuel g source lfs ep unique).outcome
          = Outcome.raised RErr.valueErr) := by
  unfold NWDF_bellman_ford
  rw [if_pos hs]
  have h := scanGo_never_yields
    (fun st start => NWDF_retrace fuel st start lfs ep unique)
    (fun st n => NWDF_retrace_flagged fuel st n lfs ep unique hf)
    (Finder.relaxPasses (g.nodes.length - 1) ((Finder.mk0 g).initSource source)).graph.edges
    (Finder.relaxPasses (g.nodes.length - 1) ((Finder.mk0 g).initSource source))
    []
  simpa using h

/-- Witness for the amended C7 on a graph with a reachable negative cycle. -/
theorem c7_config_error_witness :
    (NWDF_bellman_ford 60 ExG7b 0 true false true).yields = [] ∧
      ((NWDF_bellman_ford 60 ExG7b 0 true false true).outcome = Outcome.done ∨
       (NWDF_bellman_ford 60 ExG7b 0 true false true).outcome
          = Outcome.raised RErr.valueErr) :=
  c7_config_error_amended 60 ExG7b 0 true false true (Or.inl rfl) (by simp [ExG7b])


theorem retraceWalk_resets (unique : Bool) :
    ∀ (fuel : Nat) (st : Finder) (cur : Node) (loop p : List Node) (st' : Finder),
      retraceWalk unique fuel st cur loop = ROut.path p st' →
        ∃ s : Finder, st' = Finder.resetAll s
  | 0, st, cur, loop, p, st', h => by cases h
  | fuel + 1, st, cur, loop, p, st', h => by
    unfold retraceWalk at h
    rcases hp : (st.predecessor_to cur).pop with _ | ⟨entry, ps⟩ <;> rw [hp] at h
    · cases h
    · dsimp only at h
      split at h
      · cases h
        exact ⟨_, rfl⟩
      · split at h
        · cases h
        · exact retraceWalk_resets unique fuel _ _ _ _ _ h

theorem spliceFrom_resets :
    ∀ (fuel : Nat) (st : Finder) (source : Node) (loop p : List Node) (st' : Finder),
      spliceFromSource fuel st source loop = ROut.path p st' →
        ∃ s : Finder, st' = Finder.resetAll s
  | 0, st, source, loop, p, st', h => by cases h
  | fuel + 1, st, source, loop, p, st', h => by
    unfold spliceFromSource at h
    split at h
    · cases h
      exact ⟨st, rfl⟩
    · dsimp only at h
      rcases hp : (st.predecessor_from (lastN loop)).peek with _ | e1 <;> rw [hp] at h
      · cases h
      · exact spliceFrom_resets fuel _ _ _ _ _ h

theorem anchoredClose_resets (fuel : Nat) (st1 : Finder) (source : Node) (ep : Bool)
    (loop2 p : List Node) (st' : Finder)
    (h : anchoredClose fuel st1 source ep loop2 = ROut.path p st') :
    ∃ s : Finder, st' = Finder.resetAll s := by
  unfold anchoredClose at h
  rcases he : (if ep = true then ensureProfitStep st1 source loop2
      else Except.ok loop2) with er | loop4 <;> rw [he] at h
  · cases h
  · dsimp only at h
    rcases hq : (st1.predecessor_to (headN loop4)).pop with _ | ⟨e1, ps1⟩ <;> rw [hq] at h
    · cases h
    · dsimp only at h
      rcases hs : spliceToSource fuel
          { st1 with predecessor_to := fun n =>
              if n = headN loop4 then ps1 else st1.predecessor_to n } source loop4
          with ⟨l5, s3⟩ | ⟨er, s3⟩ | ⟨s3⟩ <;> rw [hs] at h
      · exact spliceFrom_resets fuel _ _ _ _ _ h
      · cases h
      · cases h

theorem NWF_retrace_resets (fuel : Nat) (st : Finder) (start : Node) (lfs : Bool)
    (source : Node) (ep unique : Bool) (p : List Node) (st' : Finder)
    (h : NWF_retrace fuel st start lfs source ep unique = ROut.path p st') :
    ∃ s : Finder, st' = Finder.resetAll s := by
  unfold NWF_retrace at h
  split at h
  · cases h
  · split at h
    · exact retraceWalk_resets unique fuel st start [start] p st' h
    · split at h
      · cases h
      · rcases hp : (st.predecessor_to start).peek with _ | e0 <;> rw [hp] at h
        · cases h
        · dsimp only at h
          split at h
          · cases h
          · rcases ha : anchoredWalk unique fuel st [e0.2, start]
                with ⟨loop2, st1⟩ | ⟨er, st1⟩ | ⟨st1⟩ <;> rw [ha] at h
            · exact anchoredClose_resets fuel st1 source ep loop2 p st' h
            · cases h
            · cases h

/-- C8 amended: the plain and source-anchored retraces reset every candidate
store's cursor (both `predecessor_to` and `predecessor_from`, for every node)
before returning their cycle; the volume-constrained retrace does not (see
the counterexample). -/
theorem c8_reset_amended (fuel : Nat) (st : Finder) (start : Node) (lfs : Bool)
    (source : Node) (ep unique : Bool) (p : List Node) (st' : Finder)
    (h : NWF_retrace fuel st start lfs source ep unique = ROut.path p st') :
    ∀ n : Node, (st'.predecessor_to n).cursor = 0 ∧
      (st'.predecessor_from n).cursor = 0 := by
  obtain ⟨s, rfl⟩ := NWF_retrace_resets fuel st start lfs source ep unique p st' h
  exact fun n => ⟨rfl, rfl⟩

/-- Witness for the amended C8: a concrete successful plain retrace whose
returned state has the inspected cursors at 0. -/
theorem c8_reset_witness :
    ((NWF_retrace 60 ExG8state 1 false 0 false true).state.predecessor_to 0).cursor = 0 ∧
      ((NWF_retrace 60 ExG8state 1 false 0 false true).state.predecessor_from 0).cursor = 0 := by
  have h : NWF_retrace 60 ExG8state 1 false 0 false true
      = ROut.path [1, 0, 1] ((NWF_retrace 60 ExG8state 1 false 0 false true).state) := by
    with_unfolding_all rfl
  exact c8_reset_amended 60 ExG8state 1 false 0 false true [1, 0, 1] _ h 0

/-- `relax` never changes the graph. -/
theorem relax_graph (st : Finder) (e : GEdge) : (st.relax e).graph = st.graph := by
  unfold Finder.relax
  dsimp only
  split <;> split <;> rfl

/-- Folding `relax` never changes the graph. -/
theorem foldl_relax_graph :
    ∀ (l : List GEdge) (st : Finder), (l.foldl Finder.relax st).graph = st.graph
  | [], _ => rfl
  | e :: l, st => (foldl_relax_graph l (st.relax e)).trans (relax_graph st e)

/-- Relaxation passes never change the graph. -/
theorem relaxPasses_graph : ∀ (k : Nat) (st : Finder),
    (Finder.relaxPasses k st).graph = st.graph
  | 0, _ => rfl
  | k + 1, st => (foldl_relax_graph _ _).trans (relaxPasses_graph k st)

/-- The depth retrace loop never changes the graph. -/
theorem depthGo_state_graph (unique : Bool) :
    ∀ (fuel : Nat) (st : Finder) (prior : Node) (loop : List Node) (m : ℚ),
      ((depthRetraceGo unique fuel st prior loop m).state).graph = st.graph
  | 0, _, _, _, _ => rfl
  | fuel + 1, st, prior, loop, m => by
    unfold depthRetraceGo
    split
    · rfl
    · dsimp only
      rcases hq : (Finder.predecessor_to
          { st with seen_nodes := prior :: st.seen_nodes } (headN loop)).pop
          with _ | ⟨e1, ps1⟩
      · rfl
      · dsimp only
        rcases hed : Graph.edgeData _ e1.2 (headN loop) with _ | ed
        · rfl
        · dsimp only
          split
          · rfl
          · exact depthGo_state_graph unique fuel _ _ _ _

/-- A depth retrace never changes the graph. -/
theorem NWDF_retrace_state_graph (fuel : Nat) (st : Finder) (start : Node)
    (lfs ep unique : Bool) :
    ((NWDF_retrace fuel st start lfs ep unique).state).graph = st.graph := by
  unfold NWDF_retrace
  split
  · rfl
  · split
    · rfl
    · rcases hq : (st.predecessor_to start).pop with _ | ⟨e1, ps1⟩
      · rfl
      · dsimp only
        rcases hed : Graph.edgeData _ e1.2 start with _ | ed
        · rfl
        · exact depthGo_state_graph unique fuel _ _ _ _

/-- Prepending a node appends its pair to the processing order. -/
theorem procPairs_cons (a x : Node) (loop : List Node) :
    procPairs (a :: x :: loop) = procPairs (x :: loop) ++ [(a, x)] := by
  simp [procPairs, pathPairs]

/-- Bridge: a successful depth retrace loop extends the arbitrage loop by a
block of pairs and returns exactly the fold of the code recurrence over that
block in processing order. -/
theorem depthGo_min (unique : Bool) :
    ∀ (fuel : Nat) (st : Finder) (prior x : Node) (loop : List Node) (m : ℚ)
      (l' : List Node) (m' : ℚ) (st' : Finder),
      depthRetraceGo unique fuel st prior (x :: loop) m = ROut.path (l', m') st' →
      ∃ ps, procPairs l' = procPairs (x :: loop) ++ ps ∧
        minAlong st.graph m ps = some m'
  | 0, st, prior, x, loop, m, l', m', st', h => by cases h
  | fuel + 1, st, prior, x, loop, m, l', m', st', h => by
    unfold depthRetraceGo at h
    split at h
    · cases h
    · dsimp only at h
      rcases hq : (Finder.predecessor_to
          { st with seen_nodes := prior :: st.seen_nodes } (headN (x :: loop))).pop
          with _ | ⟨e1, ps1⟩ <;> rw [hq] at h
      · cases h
      · dsimp only at h
        rcases hed : st.graph.edgeData e1.2 (headN (x :: loop)) with _ | ed <;>
          rw [hed] at h
        · cases h
        · dsimp only at h
          split at h
          · cases h
            refine ⟨[(e1.2, x)], procPairs_cons e1.2 x loop, ?_⟩
            show minAlong st.graph m [(e1.2, x)] = some _
            unfold minAlong
            rw [show lookupWD st.graph (e1.2, x)
                = (st.graph.edgeData e1.2 (headN (x :: loop))).map
                    (fun ed => (ed.weight, ed.depth)) from rfl, hed]
            rfl
          · obtain ⟨ps', hps', hmin'⟩ :=
              depthGo_min unique fuel _ e1.2 e1.2 (x :: loop) _ l' m' st' h
            refine ⟨(e1.2, x) :: ps', ?_, ?_⟩
            · rw [hps', procPairs_cons, List.append_assoc]
              rfl
            · show minAlong st.graph m ((e1.2, x) :: ps') = some m'
              unfold minAlong
              rw [show lookupWD st.graph (e1.2, x)
                  = (st.graph.edgeData e1.2 (headN (x :: loop))).map
                      (fun ed => (ed.weight, ed.depth)) from rfl, hed]
              exact hmin'

/-- A successful depth retrace returns exactly the minimum the code recurrence
computes along the returned loop. -/
theorem NWDF_retrace_min (fuel : Nat) (st : Finder) (start : Node)
    (lfs ep unique : Bool) (l : List Node) (m : ℚ) (st' : Finder)
    (h : NWDF_retrace fuel st start lfs ep unique = ROut.path (l, m) st') :
    codeMinOf st.graph l = some m := by
  unfold NWDF_retrace at h
  split at h
  · cases h
  · split at h
    · cases h
    · rcases hq : (st.predecessor_to start).pop with _ | ⟨e1, ps1⟩ <;> rw [hq] at h
      · cases h
      · dsimp only at h
        rcases hed : st.graph.edgeData e1.2 start with _ | ed <;> rw [hed] at h
        · cases h
        · dsimp only at h
          obtain ⟨ps, hps, hmin⟩ :=
            depthGo_min unique fuel _ e1.2 e1.2 [start] ed.depth l m st' h
          unfold codeMinOf
          rw [hps, show procPairs [e1.2, start] ++ ps = (e1.2, start) :: ps from rfl]
          dsimp only
          rw [show lookupWD st.graph (e1.2, start)
              = (st.graph.edgeData e1.2 start).map
                  (fun ed => (ed.weight, ed.depth)) from rfl, hed]
          exact hmin

/-- Anything the witness-edge scan yields satisfies any property enjoyed by
every successful retrace (graphs being preserved throughout). -/
theorem scanGo_yield_prop {α : Type} (g : Graph) (retr : Finder → Node → ROut α)
    (P : α → Prop)
    (hgr : ∀ st n, ((retr st n).state).graph = st.graph)
    (hp : ∀ st n p st1, st.graph = g → retr st n = ROut.path p st1 → P p) :
    ∀ (es : List GEdge) (st : Finder) (acc : List α), st.graph = g →
      (∀ x ∈ acc, P x) → ∀ y ∈ (scanGo retr st es acc).yields, P y
  | [], st, acc, hg, hacc, y, hy => by
    simp only [scanGo] at hy
    exact hacc y (List.mem_reverse.1 hy)
  | e :: rest, st, acc, hg, hacc, y, hy => by
    simp only [scanGo] at hy
    split at hy
    · rcases hr : retr st e.2.1 with ⟨p, st1⟩ | ⟨er, st1⟩ | ⟨st1⟩ <;> rw [hr] at hy
      · have hg1 : st1.graph = g := by
          have := hgr st e.2.1
          rw [hr] at this
          exact this.trans hg
        refine scanGo_yield_prop g retr P hgr hp rest st1 (p :: acc) hg1 ?_ y hy
        intro x hx
        rcases hx with _ | hx
        · exact hp st e.2.1 p st1 hg hr
        · exact hacc x (by assumption)
      · have hg1 : st1.graph = g := by
          have := hgr st e.2.1
          rw [hr] at this
          exact this.trans hg
        dsimp only at hy
        split at hy
        · exact scanGo_yield_prop g retr P hgr hp rest st1 acc hg1 hacc y hy
        · exact hacc y (List.mem_reverse.1 hy)
      · exact hacc y (List.mem_reverse.1 hy)
    · exact scanGo_yield_prop g retr P hgr hp rest st acc hg hacc y hy

/-- C4 amended: in volume-constrained mode the minimum returned with a
retraced loop starts at the first processed edge's depth and, for each
subsequent edge with weight `w` and depth `d`, becomes `d` if `w + d` exceeds
the running minimum, `max (minimum - w) d` if `w + d` is below it, and — the
case the original claim omits — stays unchanged when `w + d` equals it:
every yielded `{loop, minimum}` record satisfies `codeMinOf`. -/
theorem NWDF_yield_codeMin (fuel : Nat) (g : Graph) (source : Node)
    (lfs ep unique : Bool) (l : List Node) (m : ℚ)
    (hy : (l, m) ∈ (NWDF_bellman_ford fuel g source lfs ep unique).yields) :
    codeMinOf g l = some m := by
  unfold NWDF_bellman_ford at hy
  by_cases hs : source ∈ g.nodes
  · rw [if_pos hs] at hy
    refine scanGo_yield_prop g
      (fun st start => NWDF_retrace fuel st start lfs ep unique)
      (fun x => codeMinOf g x.1 = some x.2)
      (fun st n => NWDF_retrace_state_graph fuel st n lfs ep unique)
      (fun st n p st1 hg hr => ?_) _ _ [] (relaxPasses_graph _ _) (by simp) (l, m) hy
    obtain ⟨pl, pm⟩ := p
    have := NWDF_retrace_min fuel st n lfs ep unique pl pm st1 hr
    rw [hg] at this
    exact this
  · rw [if_neg hs] at hy
    simp at hy

/-- C4 amended (wrapper over the shared bridge lemma): in volume-constrained
mode the minimum returned with a retraced loop starts at the first processed
edge's depth and, for each subsequent edge with weight `w` and depth `d`,
becomes `d` if `w + d` exceeds the running minimum, `max (minimum - w) d` if
`w + d` is below it, and — the case the original claim omits — stays
unchanged when `w + d` equals it. -/
theorem c4_min_recurrence_amended (fuel : Nat) (g : Graph) (source : Node)
    (lfs ep unique : Bool) (l : List Node) (m : ℚ)
    (hy : (l, m) ∈ (NWDF_bellman_ford fuel g source lfs ep unique).yields) :
    codeMinOf g l = some m :=
  NWDF_yield_codeMin fuel g source lfs ep unique l m hy

/-- Witness for the amended C4 on the concrete depth run over `ExG4`. -/
theorem c4_min_recurrence_witness : codeMinOf ExG4 [1, 0, 1] = some 3 := by
  have hy : ([1, 0, 1], (3 : ℚ)) ∈ (NWDF_bellman_ford 60 ExG4 0 false false true).yields := by
    rw [show (NWDF_bellman_ford 60 ExG4 0 false false true).yields
        = [([1, 0, 1], (3 : ℚ))] from by with_unfolding_all rfl]
    exact List.mem_singleton.mpr rfl
  exact c4_min_recurrence_amended 60 ExG4 0 false false true [1, 0, 1] 3 hy

/-- Away from the tie, one recurrence step loses at most the edge weight. -/
theorem minFoldStep_le_add (m0 : ℚ) (wd : ℚ × ℚ) (hne : wd.1 + wd.2 ≠ m0) :
    m0 ≤ minFoldStep m0 wd + wd.1 := by
  unfold minFoldStep
  rcases lt_trichotomy (wd.1 + wd.2) m0 with h | h | h
  · rw [if_pos h]
    have := le_max_left (m0 - wd.1) wd.2
    linarith
  · exact absurd h hne
  · rw [if_neg (by linarith), if_pos h]
    linarith

/-- Away from the tie, one recurrence step never goes below the edge depth. -/
theorem minFoldStep_depth_le (m0 : ℚ) (wd : ℚ × ℚ) (hne : wd.1 + wd.2 ≠ m0) :
    wd.2 ≤ minFoldStep m0 wd := by
  unfold minFoldStep
  rcases lt_trichotomy (wd.1 + wd.2) m0 with h | h | h
  · rw [if_pos h]
    exact le_max_right _ _
  · exact absurd h hne
  · rw [if_neg (by linarith), if_pos h]

/-- A tie-free fold of the code recurrence never loses more than the summed
edge weights. -/
theorem minAlong_mono :
    ∀ (ps : List (Node × Node)) (g : Graph) (m0 m : ℚ),
      minAlong g m0 ps = some m → tieFreeFrom g m0 ps = true →
      ∃ sw, sumW g ps = some sw ∧ m0 ≤ m + sw
  | [], g, m0, m, hm, _ => by
    simp only [minAlong, Option.some.injEq] at hm
    exact ⟨0, rfl, by simp [hm]⟩
  | p :: rest, g, m0, m, hm, ht => by
    unfold minAlong at hm
    unfold tieFreeFrom at ht
    rcases hl : lookupWD g p with _ | wd <;> rw [hl] at hm ht
    · cases hm
    · simp only [Bool.and_eq_true, decide_eq_true_eq] at ht
      obtain ⟨sw', hsw', hle⟩ := minAlong_mono rest g _ m hm ht.2
      refine ⟨wd.1 + sw', ?_, ?_⟩
      · unfold sumW
        rw [hl, hsw']
      · have := minFoldStep_le_add m0 wd ht.1
        linarith

/-- Along a tie-free fold, every processed edge's depth is dominated by the
final minimum discounted by the weights processed after it. -/
theorem minAlong_split :
    ∀ (a : List (Node × Node)) (g : Graph) (m0 : ℚ) (p : Node × Node)
      (b : List (Node × Node)) (m : ℚ),
      minAlong g m0 (a ++ p :: b) = some m →
      tieFreeFrom g m0 (a ++ p :: b) = true →
      ∃ w d sw, lookupWD g p = some (w, d) ∧ sumW g b = some sw ∧ d ≤ m + sw
  | [], g, m0, p, b, m, hm, ht => by
    simp only [List.nil_append] at hm ht
    unfold minAlong at hm
    unfold tieFreeFrom at ht
    rcases hl : lookupWD g p with _ | wd <;> rw [hl] at hm ht
    · cases hm
    · simp only [Bool.and_eq_true, decide_eq_true_eq] at ht
      obtain ⟨sw, hsw, hle⟩ := minAlong_mono b g _ m hm ht.2
      have hd := minFoldStep_depth_le m0 wd ht.1
      exact ⟨wd.1, wd.2, sw, by simp [hl], hsw, by linarith⟩
  | x :: a, g, m0, p, b, m, hm, ht => by
    simp only [List.cons_append] at hm ht
    unfold minAlong at hm
    unfold tieFreeFrom at ht
    rcases hl : lookupWD g x with _ | wd <;> rw [hl] at hm ht
    · cases hm
    · simp only [Bool.and_eq_true, decide_eq_true_eq] at ht
      exact minAlong_split a g _ p b m hm ht.2

/-- C5 amended: in volume-constrained mode, provided no step of the retrace
hit the tie `weight + depth = minimum`, every edge along a yielded loop
satisfies the discounted bottleneck inequality: its depth never exceeds the
reported minimum plus the total weight of the edges processed after it
(equivalently, the volume reaching each edge never exceeds that edge's depth
limit).  The undiscounted claim `minimum ≤ depth` is false (see the
counterexample). -/
theorem c5_bottleneck_amended (fuel : Nat) (g : Graph) (source : Node)
    (lfs ep unique : Bool) (l : List Node) (m : ℚ)
    (hy : (l, m) ∈ (NWDF_bellman_ford fuel g source lfs ep unique).yields)
    (ht : loopTieFree g l = true) :
    ∀ (a : List (Node × Node)) (p : Node × Node) (b : List (Node × Node)),
      procPairs l = a ++ p :: b →
      ∃ w d sw, lookupWD g p = some (w, d) ∧ sumW g b = some sw ∧ d ≤ m + sw := by
  have hc := NWDF_yield_codeMin fuel g source lfs ep unique l m hy
  intro a p b hsplit
  unfold codeMinOf at hc
  unfold loopTieFree at ht
  rw [hsplit] at hc ht
  cases a with
  | nil =>
    simp only [List.nil_append] at hc ht
    rcases hl : lookupWD g p with _ | wd <;> rw [hl] at hc ht
    · cases hc
    · dsimp only at hc ht
      obtain ⟨sw, hsw, hle⟩ := minAlong_mono b g wd.2 m hc ht
      exact ⟨wd.1, wd.2, sw, by simp [hl], hsw, by linarith⟩
  | cons x a' =>
    simp only [List.cons_append] at hc ht
    rcases hl : lookupWD g x with _ | wd <;> rw [hl] at hc ht
    · cases hc
    · dsimp only at hc ht
      exact minAlong_split a' g wd.2 p b m hc ht

/-- Witness for the amended C5 on the concrete depth run over `ExG5`. -/
theorem c5_bottleneck_witness :
    ∃ w d sw, lookupWD ExG5 (1, 0) = some (w, d) ∧ sumW ExG5 [] = some sw ∧
      d ≤ 15 + sw := by
  have hy : ([1, 0, 1], (15 : ℚ))
      ∈ (NWDF_bellman_ford 60 ExG5 0 false false true).yields := by
    rw [show (NWDF_bellman_ford 60 ExG5 0 false false true).yields
        = [([1, 0, 1], (15 : ℚ))] from by with_unfolding_all rfl]
    exact List.mem_singleton.mpr rfl
  have ht : loopTieFree ExG5 [1, 0, 1] = true := by with_unfolding_all rfl
  exact c5_bottleneck_amended 60 ExG5 0 false false true [1, 0, 1] 15 hy ht
    [(0, 1)] (1, 0) [] (by with_unfolding_all rfl)

/-- Everything is below infinity. -/
theorem DVal.le_inf : ∀ a : DVal, a.Le DVal.inf
  | DVal.inf => trivial
  | DVal.fin _ => trivial

/-- The distance order is reflexive. -/
theorem DVal.Le.rfl : ∀ a : DVal, a.Le a
  | DVal.inf => trivial
  | DVal.fin q => le_refl q

/-- The distance order is transitive. -/
theorem DVal.Le.trans : ∀ {a b c : DVal}, a.Le b → b.Le c → a.Le c
  | a, _, DVal.inf, _, _ => DVal.le_inf a
  | DVal.inf, DVal.inf, DVal.fin _, _, h => h
  | DVal.fin _, DVal.inf, DVal.fin _, _, h => by cases h
  | DVal.inf, DVal.fin _, DVal.fin _, h, _ => by cases h
  | DVal.fin _, DVal.fin _, DVal.fin _, h1, h2 => le_trans h1 h2

/-- Adding a weight is monotone. -/
theorem DVal.addW_mono : ∀ {a b : DVal} (w : ℚ), a.Le b → (a.addW w).Le (b.addW w)
  | a, DVal.inf, w, _ => DVal.le_inf (a.addW w)
  | DVal.inf, DVal.fin _, _, h => by cases h
  | DVal.fin _, DVal.fin _, w, h => by
    show _ + _ ≤ _ + _
    exact add_le_add_right h w

/-- A strict Python comparison implies the order. -/
theorem DVal.blt_le : ∀ {a b : DVal}, a.blt b = true → a.Le b
  | DVal.inf, _, h => by cases h
  | DVal.fin _, DVal.inf, _ => trivial
  | DVal.fin _, DVal.fin _, h => le_of_lt (by simpa [DVal.blt] using h)

/-- A failed strict comparison gives the reverse order. -/
theorem DVal.blt_false_le : ∀ {a b : DVal}, a.blt b = false → b.Le a
  | DVal.inf, b, _ => DVal.le_inf b
  | DVal.fin _, DVal.inf, h => by cases h
  | DVal.fin _, DVal.fin _, h => le_of_not_lt (by simpa [DVal.blt] using h)

/-- Strict comparison contradicts the reverse order. -/
theorem DVal.blt_not_le : ∀ {a b : DVal}, a.blt b = true → b.Le a → False
  | DVal.inf, _, h, _ => by cases h
  | DVal.fin _, DVal.inf, _, h2 => h2
  | DVal.fin a, DVal.fin b, h1, h2 => by
    simp only [DVal.blt, decide_eq_true_eq] at h1
    exact absurd h2 (not_le.2 h1)

/-- A finite sum comes from a finite distance. -/
theorem DVal.addW_fin : ∀ {a : DVal} {w q : ℚ}, a.addW w = DVal.fin q → a = DVal.fin (q - w)
  | DVal.inf, w, q, h => by cases h
  | DVal.fin p, w, q, h => by
    simp only [DVal.addW, DVal.fin.injEq] at h
    rw [← h]
    ring_nf

/-- The order on finite values is the rational order. -/
theorem DVal.fin_le_fin {q r : ℚ} (h : q ≤ r) : (DVal.fin q).Le (DVal.fin r) := h

/-- Weight of the empty walk. -/
theorem chainWeight_nil : chainWeight [] = 0 := rfl

/-- Weight of a walk extended at the front. -/
theorem chainWeight_cons (e : GEdge) (es : List GEdge) :
    chainWeight (e :: es) = e.2.2.weight + chainWeight es := by
  simp [chainWeight]

/-- Walk weights add over concatenation. -/
theorem chainWeight_append (a b : List GEdge) :
    chainWeight (a ++ b) = chainWeight a + chainWeight b := by
  simp [chainWeight]

/-- Walks concatenate. -/
theorem chainOk_append (g : Graph) :
    ∀ (xs : List GEdge) (s m : Node) (ys : List GEdge) (t : Node),
      chainOk g s xs m → chainOk g m ys t → chainOk g s (xs ++ ys) t
  | [], s, m, ys, t, h1, h2 => by
    simp only [chainOk] at h1
    subst h1
    exact h2
  | e :: xs, s, m, ys, t, h1, h2 =>
    ⟨h1.1, h1.2.1, chainOk_append g xs e.2.1 m ys t h1.2.2 h2⟩

/-- A concatenated walk splits at the junction node. -/
theorem chainOk_append_inv (g : Graph) :
    ∀ (xs : List GEdge) (s : Node) (ys : List GEdge) (t : Node),
      chainOk g s (xs ++ ys) t → ∃ m, chainOk g s xs m ∧ chainOk g m ys t
  | [], s, ys, t, h => ⟨s, rfl, h⟩
  | e :: xs, s, ys, t, h => by
    obtain ⟨m, h1, h2⟩ := chainOk_append_inv g xs e.2.1 ys t h.2.2
    exact ⟨m, ⟨h.1, h.2.1, h1⟩, h2⟩

/-- A single edge is a walk. -/
theorem chainOk_single (g : Graph) (e : GEdge) (he : e ∈ g.edges) :
    chainOk g e.1 [e] e.2.1 :=
  ⟨he, rfl, rfl⟩

/-- `relax` never increases any `distance_to` entry. -/
theorem relax_dto_le (st : Finder) (e : GEdge) (v : Node) :
    ((st.relax e).distance_to v).Le (st.distance_to v) := by
  unfold Finder.relax
  dsimp only
  split
  · split
    · by_cases hv : v = e.2.1
      · subst hv
        simp only [if_pos rfl]
        exact DVal.blt_le (by assumption)
      · simp only [if_neg hv]
        exact DVal.Le.rfl _
    · by_cases hv : v = e.2.1
      · subst hv
        simp only [if_pos rfl]
        exact DVal.blt_le (by assumption)
      · simp only [if_neg hv]
        exact DVal.Le.rfl _
  · split
    · exact DVal.Le.rfl _
    · exact DVal.Le.rfl _

/-- After relaxing an edge, the head's distance is bounded by the tail's
distance plus the weight. -/
theorem relax_dto_bound (st : Finder) (e : GEdge) :
    ((st.relax e).distance_to e.2.1).Le ((st.distance_to e.1).addW e.2.2.weight) := by
  unfold Finder.relax
  dsimp only
  split
  · split <;> · simp only [if_pos rfl]; exact DVal.Le.rfl _
  · have hf : ((st.distance_to e.1).addW e.2.2.weight).blt (st.distance_to e.2.1)
        = false := by
      simp only [Bool.not_eq_true] at *
      assumption
    split <;> · exact DVal.blt_false_le hf

/-- A relaxation fold never increases any `distance_to` entry. -/
theorem foldl_dto_le :
    ∀ (l : List GEdge) (st : Finder) (v : Node),
      ((l.foldl Finder.relax st).distance_to v).Le (st.distance_to v)
  | [], _, _ => DVal.Le.rfl _
  | e :: l, st, v => DVal.Le.trans (foldl_dto_le l (st.relax e) v) (relax_dto_le st e v)

/-- After a pass containing an edge, the head's distance is bounded by the
tail's distance at the start of the pass plus the weight. -/
theorem foldl_dto_bound :
    ∀ (l : List GEdge) (st : Finder) (e : GEdge), e ∈ l →
      ((l.foldl Finder.relax st).distance_to e.2.1).Le
        ((st.distance_to e.1).addW e.2.2.weight)
  | [], st, e, he => absurd he (List.not_mem_nil e)
  | f :: l, st, e, he => by
    rcases List.mem_cons.1 he with rfl | he
    · exact DVal.Le.trans (foldl_dto_le l (st.relax e) e.2.1) (relax_dto_bound st e)
    · exact DVal.Le.trans (foldl_dto_bound l (st.relax f) e he)
        (DVal.addW_mono e.2.2.weight (relax_dto_le st f e.1))

/-- Soundness invariant: every finite `distance_to` value is realized by an
actual walk from the source. -/
def DInv (g : Graph) (source : Node) (st : Finder) : Prop :=
  ∀ v q, st.distance_to v = DVal.fin q →
    ∃ es, chainOk g source es v ∧ chainWeight es = q

/-- The invariant holds after `initialize(source)`. -/
theorem DInv_init (g : Graph) (source : Node) :
    DInv g source ((Finder.mk0 g).initSource source) := by
  intro v q h
  simp only [Finder.mk0, Finder.initSource] at h
  by_cases hv : v = source
  · rw [if_pos hv] at h
    cases h
    subst hv
    exact ⟨[], rfl, rfl⟩
  · rw [if_neg hv] at h
    cases h

/-- The invariant is preserved by relaxing a graph edge. -/
theorem DInv_relax (g : Graph) (source : Node) (st : Finder) (e : GEdge)
    (he : e ∈ g.edges) (hinv : DInv g source st) : DInv g source (st.relax e) := by
  intro v q h
  unfold Finder.relax at h
  dsimp only at h
  split at h
  · split at h
    all_goals {
      dsimp only at h
      by_cases hv : v = e.2.1
      · rw [if_pos hv] at h
        obtain ⟨es, hch, hw⟩ := hinv e.1 (q - e.2.2.weight) (DVal.addW_fin h)
        refine ⟨es ++ [e], ?_, ?_⟩
        · subst hv
          exact chainOk_append g es source e.1 [e] e.2.1 hch (chainOk_single g e he)
        · rw [chainWeight_append, hw, chainWeight_cons, chainWeight_nil]
          ring
      · rw [if_neg hv] at h
        exact hinv v q h }
  · split at h
    all_goals { dsimp only at h; exact hinv v q h }

/-- The invariant is preserved by a relaxation fold over graph edges. -/
theorem DInv_foldl (g : Graph) (source : Node) :
    ∀ (l : List GEdge) (st : Finder), (∀ e ∈ l, e ∈ g.edges) →
      DInv g source st → DInv g source (l.foldl Finder.relax st)
  | [], _, _, hinv => hinv
  | e :: l, st, hl, hinv =>
    DInv_foldl g source l (st.relax e) (fun f hf => hl f (List.mem_cons_of_mem e hf))
      (DInv_relax g source st e (hl e (List.mem_cons_self e l)) hinv)

/-- The invariant is preserved by any number of passes. -/
theorem DInv_passes (g : Graph) (source : Node) :
    ∀ (k : Nat) (st : Finder), st.graph = g → DInv g source st →
      DInv g source (Finder.relaxPasses k st)
  | 0, _, _, hinv => hinv
  | k + 1, st, hg, hinv => by
    show DInv g source (Finder.relaxPasses k st).relaxPass
    unfold Finder.relaxPass
    rw [show (Finder.relaxPasses k st).graph = g from (relaxPasses_graph k st).trans hg]
    exact DInv_foldl g source g.edges _ (fun _ h => h)
      (DInv_passes g source k st hg hinv)

/-- A walk ending in an edge splits off that edge. -/
theorem chainOk_snoc_inv (g : Graph) (xs : List GEdge) (e : GEdge) (s t : Node)
    (h : chainOk g s (xs ++ [e]) t) :
    chainOk g s xs e.1 ∧ e ∈ g.edges ∧ t = e.2.1 := by
  obtain ⟨m, h1, h2⟩ := chainOk_append_inv g xs s [e] t h
  obtain ⟨he, hm, ht⟩ := h2
  subst hm
  exact ⟨h1, he, ht⟩

/-- Upper-bound invariant: after `k` passes, `distance_to` is below the weight
of every source walk with at most `k` edges. -/
def UB (g : Graph) (source : Node) (k : Nat) (st : Finder) : Prop :=
  ∀ es t, chainOk g source es t → es.length ≤ k →
    (st.distance_to t).Le (DVal.fin (chainWeight es))

/-- The upper bound holds initially for zero-edge walks. -/
theorem UB_zero (g : Graph) (source : Node) :
    UB g source 0 ((Finder.mk0 g).initSource source) := by
  intro es t hch hlen
  rw [Nat.le_zero, List.length_eq_zero] at hlen
  subst hlen
  have ht : t = source := hch
  show (if t = source then DVal.fin 0 else DVal.inf).Le _
  rw [if_pos ht]
  exact le_refl (0 : ℚ)

/-- One more pass extends the upper bound by one edge. -/
theorem UB_step (g : Graph) (source : Node) (k : Nat) (st : Finder)
    (hg : st.graph = g) (hub : UB g source k st) :
    UB g source (k + 1) st.relaxPass := by
  intro es t hch hlen
  rcases List.eq_nil_or_concat es with rfl | ⟨xs, e, rfl⟩
  · exact DVal.Le.trans (foldl_dto_le _ st t) (hub [] t hch (Nat.zero_le k))
  · simp only [List.concat_eq_append] at hch hlen ⊢
    obtain ⟨h1, he, ht⟩ := chainOk_snoc_inv g xs e source t hch
    subst ht
    have hxs : xs.length ≤ k := by
      have := hlen
      simp only [List.length_append, List.length_cons, List.length_nil] at this
      omega
    have hb : ((st.relaxPass).distance_to e.2.1).Le
        ((st.distance_to e.1).addW e.2.2.weight) := by
      unfold Finder.relaxPass
      rw [hg]
      exact foldl_dto_bound g.edges st e he
    refine DVal.Le.trans hb (DVal.Le.trans
      (DVal.addW_mono e.2.2.weight (hub xs e.1 h1 hxs)) ?_)
    show (DVal.fin (chainWeight xs + e.2.2.weight)).Le (DVal.fin (chainWeight (xs ++ [e])))
    rw [chainWeight_append, chainWeight_cons, chainWeight_nil]
    exact le_of_eq (by ring)

/-- After `k` passes the upper bound covers walks of `k` edges. -/
theorem UB_passes (g : Graph) (source : Node) :
    ∀ k : Nat, UB g source k
      (Finder.relaxPasses k ((Finder.mk0 g).initSource source))
  | 0 => UB_zero g source
  | k + 1 =>
    UB_step g source k _ (relaxPasses_graph k _) (UB_passes g source k)

/-- Visited nodes of a walk extended at the front. -/
theorem chainNodes_cons (s : Node) (e : GEdge) (es : List GEdge) :
    chainNodes s (e :: es) = s :: chainNodes e.2.1 es := rfl

/-- A walk visits one node more than it has edges. -/
theorem chainNodes_length (s : Node) (es : List GEdge) :
    (chainNodes s es).length = es.length + 1 := by
  simp [chainNodes]

/-- A walk splits at any visited node. -/
theorem memSplit (g : Graph) :
    ∀ (es : List GEdge) (v t m : Node), chainOk g v es t → m ∈ chainNodes v es →
      ∃ es1 es2, es = es1 ++ es2 ∧ chainOk g v es1 m ∧ chainOk g m es2 t
  | [], v, t, m, hch, hm => by
    simp only [chainNodes, List.map_nil, List.mem_singleton] at hm
    subst hm
    exact ⟨[], [], rfl, rfl, hch⟩
  | e :: es, v, t, m, hch, hm => by
    rw [chainNodes_cons] at hm
    rcases List.mem_cons.1 hm with rfl | hm
    · exact ⟨[], e :: es, rfl, rfl, hch⟩
    · obtain ⟨es1, es2, heq, h1, h2⟩ := memSplit g es e.2.1 t m hch.2.2 hm
      exact ⟨e :: es1, es2, by rw [heq]; rfl, ⟨hch.1, hch.2.1, h1⟩, h2⟩

/-- A list with a duplicate splits around the repeated element. -/
theorem dup_split :
    ∀ l : List Node, ¬ l.Nodup → ∃ a l1 l2 l3, l = l1 ++ a :: l2 ++ a :: l3
  | [], h => absurd List.nodup_nil h
  | x :: t, h => by
    by_cases hx : x ∈ t
    · obtain ⟨s, t', rfl⟩ := List.append_of_mem hx
      exact ⟨x, [], s, t', rfl⟩
    · have hnt : ¬ t.Nodup := fun hn => h (List.nodup_cons.2 ⟨hx, hn⟩)
      obtain ⟨a, l1, l2, l3, rfl⟩ := dup_split t hnt
      exact ⟨a, x :: l1, l2, l3, rfl⟩

/-- A walk in a well-formed graph only visits nodes of the graph. -/
theorem chainNodes_subset (g : Graph) (hwf : Graph.wellFormed g) :
    ∀ (es : List GEdge) (s t : Node), chainOk g s es t → s ∈ g.nodes →
      chainNodes s es ⊆ g.nodes
  | [], s, t, _, hs => by
    intro x hx
    simp only [chainNodes, List.map_nil, List.mem_singleton] at hx
    subst hx
    exact hs
  | e :: es, s, t, hch, hs => by
    intro x hx
    rw [chainNodes_cons] at hx
    rcases List.mem_cons.1 hx with rfl | hx
    · exact hs
    · exact chainNodes_subset g hwf es e.2.1 t hch.2.2 (hwf e hch.1).2 hx

/-- Reachability is reflexive. -/
theorem Reach.refl (g : Graph) (s : Node) : Reach g s s := ⟨[], rfl⟩

/-- Reachability extends along an edge. -/
theorem Reach.step (g : Graph) {source s : Node} (e : GEdge) (hr : Reach g source s)
    (he : e ∈ g.edges) (he1 : e.1 = s) : Reach g source e.2.1 := by
  obtain ⟨es0, h0⟩ := hr
  exact ⟨es0 ++ [e], chainOk_append g es0 source s [e] e.2.1 h0 (he1 ▸ chainOk_single g e he)⟩

/-- One cycle excision: a non-simple walk from a reachable node can be
shortened without increasing its weight, because the excised closed walk has
nonnegative weight when no reachable negative cycle exists. -/
theorem shorten (g : Graph) (source : Node)
    (hnn : ∀ m cs, Reach g source m → chainOk g m cs m → 0 ≤ chainWeight cs) :
    ∀ (es : List GEdge) (s t : Node), Reach g source s → chainOk g s es t →
      ¬ (chainNodes s es).Nodup →
      ∃ es', chainOk g s es' t ∧ chainWeight es' ≤ chainWeight es ∧
        es'.length < es.length
  | [], s, t, _, _, hnd => absurd (List.nodup_singleton s) hnd
  | e :: es, s, t, hr, hch, hnd => by
    rw [chainNodes_cons] at hnd
    by_cases hs : s ∈ chainNodes e.2.1 es
    · obtain ⟨es1, es2, heq, h1, h2⟩ := memSplit g es e.2.1 t s hch.2.2 hs
      have hclosed : chainOk g s (e :: es1) s := ⟨hch.1, hch.2.1, h1⟩
      have hpos := hnn s (e :: es1) hr hclosed
      refine ⟨es2, h2, ?_, ?_⟩
      · rw [heq, chainWeight_cons, chainWeight_append]
        rw [chainWeight_cons] at hpos
        linarith
      · rw [heq]
        simp only [List.length_cons, List.length_append]
        omega
    · have hnt : ¬ (chainNodes e.2.1 es).Nodup := fun hn =>
        hnd (List.nodup_cons.2 ⟨hs, hn⟩)
      obtain ⟨es'', h1, h2, h3⟩ := shorten g source hnn es e.2.1 t
        (Reach.step g e hr hch.1 hch.2.1) hch.2.2 hnt
      refine ⟨e :: es'', ⟨hch.1, hch.2.1, h1⟩, ?_, ?_⟩
      · rw [chainWeight_cons, chainWeight_cons]
        linarith
      · simpa using h3

/-- Any source walk can be replaced by one of at most `|V| - 1` edges without
increasing its weight, when no reachable negative cycle exists. -/
theorem reduceLen (g : Graph) (source : Node) (hsrc : source ∈ g.nodes)
    (hwf : Graph.wellFormed g)
    (hnn : ∀ m cs, Reach g source m → chainOk g m cs m → 0 ≤ chainWeight cs) :
    ∀ (N : Nat) (es : List GEdge) (s t : Node), es.length ≤ N →
      Reach g source s → s ∈ g.nodes → chainOk g s es t →
      ∃ es', chainOk g s es' t ∧ chainWeight es' ≤ chainWeight es ∧
        es'.length ≤ g.nodes.length - 1
  | N, es, s, t, hlen, hr, hsn, hch => by
    by_cases hnd : (chainNodes s es).Nodup
    · refine ⟨es, hch, le_refl _, ?_⟩
      have hsub := chainNodes_subset g hwf es s t hch hsn
      have hsp := List.subperm_of_subset hnd hsub
      have := hsp.length_le
      rw [chainNodes_length] at this
      omega
    · match N with
      | 0 =>
        rw [Nat.le_zero, List.length_eq_zero] at hlen
        subst hlen
        exact absurd (List.nodup_singleton s) hnd
      | N + 1 =>
        obtain ⟨es'', h1, h2, h3⟩ := shorten g source hnn es s t hr hch hnd
        obtain ⟨es', h1', h2', h3'⟩ := reduceLen g source hsrc hwf hnn N es'' s t
          (by omega) hr hsn h1
        exact ⟨es', h1', le_trans h2' h2, h3'⟩

/-- After `|V| - 1` relaxation passes on a graph with no negative cycle
reachable from `source`, no edge is still relaxable. -/
theorem no_relaxable_edge (g : Graph) (source : Node) (hsrc : source ∈ g.nodes)
    (hwf : Graph.wellFormed g)
    (hnn : ∀ m cs, Reach g source m → chainOk g m cs m → 0 ≤ chainWeight cs)
    (e : GEdge) (he : e ∈ g.edges) :
    (((Finder.relaxPasses (g.nodes.length - 1)
          ((Finder.mk0 g).initSource source)).distance_to e.1).addW
        e.2.2.weight).blt
      ((Finder.relaxPasses (g.nodes.length - 1)
          ((Finder.mk0 g).initSource source)).distance_to e.2.1) = false := by
  set stF := Finder.relaxPasses (g.nodes.length - 1) ((Finder.mk0 g).initSource source)
    with hstF
  by_contra hb
  rw [Bool.not_eq_false] at hb
  rcases hdu : stF.distance_to e.1 with _ | q
  · rw [hdu] at hb
    cases hb
  · rw [hdu] at hb
    have hinv : DInv g source stF :=
      DInv_passes g source (g.nodes.length - 1) _ rfl (DInv_init g source)
    obtain ⟨es, hch, hw⟩ := hinv e.1 q hdu
    have hchv : chainOk g source (es ++ [e]) e.2.1 :=
      chainOk_append g es source e.1 [e] e.2.1 hch (chainOk_single g e he)
    obtain ⟨es', h1, h2, h3⟩ := reduceLen g source hsrc hwf hnn (es ++ [e]).length
      (es ++ [e]) source e.2.1 (le_refl _) (Reach.refl g source) hsrc hchv
    have hub := UB_passes g source (g.nodes.length - 1) es' e.2.1 h1 h3
    have hle : (stF.distance_to e.2.1).Le (DVal.fin (q + e.2.2.weight)) := by
      refine DVal.Le.trans hub (DVal.fin_le_fin ?_)
      have : chainWeight (es ++ [e]) = q + e.2.2.weight := by
        rw [chainWeight_append, hw, chainWeight_cons, chainWeight_nil]
        ring
      linarith [h2, le_of_eq this]
    exact DVal.blt_not_le hb hle

/-- If no edge of the scanned list is relaxable, the scan yields nothing and
finishes normally. -/
theorem scanGo_done {α : Type} (retr : Finder → Node → ROut α) :
    ∀ (es : List GEdge) (st : Finder) (acc : List α),
      (∀ e ∈ es, (((st.distance_to e.1).addW e.2.2.weight).blt
        (st.distance_to e.2.1)) = false) →
      scanGo retr st es acc = ⟨acc.reverse, Outcome.done, st⟩
  | [], st, acc, _ => rfl
  | e :: es, st, acc, h => by
    simp only [scanGo]
    rw [if_neg (by rw [h e (List.mem_cons_self e es)]; exact Bool.false_ne_true)]
    exact scanGo_done retr es st acc fun f hf => h f (List.mem_cons_of_mem e hf)

/-- C3: for every graph with no negative cycle reachable from `source`
(every closed walk at a reachable node has nonnegative weight),
`bellman_ford(source)` raises no error and its generator yields no element:
after the `|V| - 1` relaxation passes the final edge scan finds no edge
`(u, v)` with `distance_to[u] + weight < distance_to[v]`. -/
theorem c3_no_negative_cycle_empty (fuel : Nat) (g : Graph) (source : Node)
    (lfs ep unique : Bool) (hsrc : source ∈ g.nodes) (hwf : Graph.wellFormed g)
    (hnn : ∀ m cs, Reach g source m → chainOk g m cs m → 0 ≤ chainWeight cs) :
    (∀ e ∈ g.edges,
      (((Finder.relaxPasses (g.nodes.length - 1)
            ((Finder.mk0 g).initSource source)).distance_to e.1).addW
          e.2.2.weight).blt
        ((Finder.relaxPasses (g.nodes.length - 1)
            ((Finder.mk0 g).initSource source)).distance_to e.2.1) = false) ∧
      (NWF_bellman_ford fuel g source lfs ep unique).yields = [] ∧
      (NWF_bellman_ford fuel g source lfs ep unique).outcome = Outcome.done := by
  have hg : (Finder.relaxPasses (g.nodes.length - 1)
      ((Finder.mk0 g).initSource source)).graph = g := relaxPasses_graph _ _
  have hscan := scanGo_done
    (fun st start => NWF_retrace fuel st start lfs source ep unique)
    (Finder.relaxPasses (g.nodes.length - 1)
      ((Finder.mk0 g).initSource source)).graph.edges
    (Finder.relaxPasses (g.nodes.length - 1) ((Finder.mk0 g).initSource source))
    []
    (by
      intro e he
      rw [hg] at he
      exact no_relaxable_edge g source hsrc hwf hnn e he)
  refine ⟨fun e he => no_relaxable_edge g source hsrc hwf hnn e he, ?_, ?_⟩ <;>
  · unfold NWF_bellman_ford
    rw [if_pos hsrc, hscan]
    try rfl

/-- Witness for C3 on the one-node edgeless graph. -/
theorem c3_no_negative_cycle_witness :
    (NWF_bellman_ford 5 ExG3 0 false false true).yields = [] ∧
      (NWF_bellman_ford 5 ExG3 0 false false true).outcome = Outcome.done := by
  have h := c3_no_negative_cycle_empty 5 ExG3 0 false false true
    (by simp [ExG3])
    (by intro e he; simp [ExG3] at he)
    (by
      intro m cs _ hch
      cases cs with
      | nil => simp [chainWeight]
      | cons e t => exact absurd hch.1 (by simp [ExG3]))
  exact ⟨h.2.1, h.2.2⟩
